import Mathlib

/-!
Formal verification of the codegallery postcode-gallery application.

The development shallowly embeds the claim-relevant parts of the source
(`src/App.tsx` and its near-duplicate variant `src/unnamed/part_001`):
the virtual-scroll engine (cycle multiplier, recentering, index
derivation, directional seeking), the image-stepping helpers, the
postcode-catalog CSV parser, the image-index builder, and the
filename-to-postcode image resolver.  JavaScript numbers appearing in
scroll arithmetic are modelled as rationals (`ℚ`); integer quantities as
`ℕ`/`ℤ`; JavaScript strings as `List Char`.
-/

namespace CodeGallery

/-! ## Definitions -/

/-! ### JavaScript numeric primitives

`jsTrunc` is JavaScript's truncation toward zero (used by `%` on
numbers); `jsMod` is JavaScript's `%` on numbers (sign of the
dividend); `Int.tmod` is exactly JavaScript's `%` on integers.
`qfloor` is `Math.floor` on a rational, kept computable via
`num / den`. -/

def qfloor (q : ℚ) : ℤ := q.num / q.den

def jsTrunc (q : ℚ) : ℤ := if 0 ≤ q then qfloor q else -qfloor (-q)

def jsMod (a b : ℚ) : ℚ := a - b * (jsTrunc (a / b) : ℚ)

/-- JavaScript `((a % b) + b) % b` on integers: the non-negative residue. -/
def jsNorm (a b : ℤ) : ℤ := Int.tmod (Int.tmod a b + b) b

/-! ### Configuration constants (src/unnamed/part_001 lines 8-10) -/

def BASE_STEP_HEIGHT : ℕ := 15
def MAX_VIRTUAL_SCROLL_PX : ℕ := 8000000
def MIN_VIRTUAL_CYCLES : ℕ := 120

/-- Embedding of `LIST_PIXEL_HEIGHT = LIST_LENGTH * BASE_STEP_HEIGHT`
(src/unnamed/part_001 line 358). -/
def LIST_PIXEL_HEIGHT (n : ℕ) : ℕ := n * BASE_STEP_HEIGHT

/-- Embedding of `VIRTUAL_MULTIPLIER` (src/unnamed/part_001 lines
359-365): `if (LIST_PIXEL_HEIGHT <= 0) return MIN_VIRTUAL_CYCLES;
return Math.max(MIN_VIRTUAL_CYCLES, Math.floor(MAX_VIRTUAL_SCROLL_PX /
LIST_PIXEL_HEIGHT))`.  `Nat` division is the floored division the
source computes. -/
def VIRTUAL_MULTIPLIER (listPixelHeight : ℕ) : ℕ :=
  if listPixelHeight = 0 then MIN_VIRTUAL_CYCLES
  else max MIN_VIRTUAL_CYCLES (MAX_VIRTUAL_SCROLL_PX / listPixelHeight)

/-- Embedding of `scrollToIndex` (src/unnamed/part_001 lines 490-501),
restricted to the value written to `activeIndex`: the function
early-returns when the list is empty and otherwise stores
`((targetIndex % LIST_LENGTH) + LIST_LENGTH) % LIST_LENGTH`. -/
def scrollToIndexActive (n : ℕ) (targetIndex : ℤ) : Option ℤ :=
  if n = 0 then none else some (jsNorm targetIndex n)

/-! ### Virtual scroll engine (src/unnamed/part_001 lines 977-997) -/

/-- Embedding of `normalizedOffset = ((scrollTop % LIST_PIXEL_HEIGHT) +
LIST_PIXEL_HEIGHT) % LIST_PIXEL_HEIGHT` (src/unnamed/part_001 lines
980-981), on rationals with JavaScript `%` semantics. -/
def normalizedOffset (lh st : ℚ) : ℚ := jsMod (jsMod st lh + lh) lh

/-- Embedding of `rawIndex = Math.floor((((scrollTop % LIST_PIXEL_HEIGHT)
+ LIST_PIXEL_HEIGHT) % LIST_PIXEL_HEIGHT) / BASE_STEP_HEIGHT)`
(src/unnamed/part_001 lines 994-997). -/
def rawIndex (n : ℕ) (st : ℚ) : ℤ :=
  qfloor (normalizedOffset (LIST_PIXEL_HEIGHT n) st / (BASE_STEP_HEIGHT : ℚ))

/-- Embedding of the recentering step of `handleScroll`
(src/unnamed/part_001 lines 983-992): when `scrollTop` is within 1.5
list-heights of either end of the virtual range it is rewritten to
`Math.floor(VIRTUAL_MULTIPLIER / 2) * LIST_PIXEL_HEIGHT +
normalizedOffset`; `m` is the virtual multiplier and `n` the catalog
length, so `TOTAL_VIRTUAL_HEIGHT = LIST_PIXEL_HEIGHT * m`. -/
def recenterScrollTop (n m : ℕ) (st : ℚ) : ℚ :=
  let lh : ℚ := (LIST_PIXEL_HEIGHT n : ℚ)
  let total : ℚ := lh * (m : ℚ)
  if st < lh * (3 / 2) ∨ total - lh * (3 / 2) < st then
    ((m / 2 : ℕ) : ℚ) * lh + normalizedOffset lh st
  else st

/-- Embedding of `cycleStart = Math.floor(currentTop / LIST_PIXEL_HEIGHT)
* LIST_PIXEL_HEIGHT` (src/unnamed/part_001 line 547). -/
def cycleStartOf (n : ℕ) (ct : ℚ) : ℚ :=
  (qfloor (ct / (LIST_PIXEL_HEIGHT n : ℚ)) : ℚ) * (LIST_PIXEL_HEIGHT n : ℚ)

/-- Embedding of the unadjusted `nextTop = cycleStart + targetIndex *
BASE_STEP_HEIGHT` of `getDirectionalTargetTop` (src/unnamed/part_001
line 548). -/
def directionalCandidate (n ti : ℕ) (ct : ℚ) : ℚ :=
  cycleStartOf n ct + (ti : ℚ) * (BASE_STEP_HEIGHT : ℚ)

/-- Embedding of `getDirectionalTargetTop` (src/unnamed/part_001 lines
545-560): the candidate offset in the current cycle, pushed one full
list-height forward (resp. backward) when it does not already lie
strictly past `currentTop` in the requested direction. -/
def getDirectionalTargetTop (n ti : ℕ) (direction : ℤ) (ct : ℚ) : ℚ :=
  let lh : ℚ := (LIST_PIXEL_HEIGHT n : ℚ)
  let next0 := directionalCandidate n ti ct
  let next1 := if 0 < direction ∧ next0 ≤ ct then next0 + lh else next0
  if direction < 0 ∧ ct ≤ next1 then next1 - lh else next1

/-! ### Image-index stepping (src/unnamed/part_001 lines 427-444 and 523-543)

`imgs` models `IMAGE_ENTRY_INDICES`: the catalog indices with a
resolved image, in increasing order (it is built by filtering
`0, 1, ..., N-1`). -/

/-- Embedding of `findNextImageIndex` (src/unnamed/part_001 lines
523-543): forward, the first listed index strictly above the normalized
start, else the first listed index; backward, the last listed index
strictly below, else the last listed index (the backward loop scans
from the end, modelled by `find?` on the reversed list). -/
def findNextImageIndex (imgs : List ℕ) (n : ℕ) (fromIndex : ℤ) (direction : ℤ) :
    Option ℕ :=
  if imgs.isEmpty ∨ n = 0 then none
  else
    let normalizedFrom := jsNorm fromIndex n
    if 0 < direction then
      some ((imgs.find? (fun (idx : ℕ) => decide (normalizedFrom < (idx : ℤ)))).getD
        (imgs.head?.getD 0))
    else
      some ((imgs.reverse.find? (fun (idx : ℕ) => decide ((idx : ℤ) < normalizedFrom))).getD
        (imgs.getLast?.getD 0))

/-- Embedding of the scan loop of `findNearestImageIndex`
(src/unnamed/part_001 lines 430-440): `minDist = none` models the
initial `Number.POSITIVE_INFINITY`, so the first candidate always
becomes `nearest`. -/
def nearestLoop (n nf : ℤ) : List ℕ → ℕ → Option ℤ → ℕ
  | [], nearest, _ => nearest
  | c :: rest, nearest, minDist =>
    let rawDistance : ℤ := |(c : ℤ) - nf|
    let circularDistance : ℤ := min rawDistance (n - rawDistance)
    if (match minDist with
        | none => true
        | some m => decide (circularDistance < m)) then
      nearestLoop n nf rest c (some circularDistance)
    else
      nearestLoop n nf rest nearest minDist

/-- Embedding of `findNearestImageIndex` (src/unnamed/part_001 lines
427-444). -/
def findNearestImageIndex (imgs : List ℕ) (n : ℕ) (fromIndex : ℤ) : Option ℕ :=
  if imgs.isEmpty ∨ n = 0 then none
  else some (nearestLoop n (jsNorm fromIndex n) imgs (imgs.head?.getD 0) none)

/-! ### JavaScript string primitives (modelled on `List Char`)

JavaScript strings are modelled as `List Char`.  The embedding of
`normalizeForMatch` models the runtime's Unicode NFKD normalization as
the identity, which it is on the ASCII-range inputs this application
feeds it; the subsequent combining-mark strip, lowercasing, run
collapsing and trimming follow the source. -/

/-- JavaScript whitespace as used by `String.prototype.trim`, restricted
to the ASCII whitespace characters. -/
def isJsWhitespace (c : Char) : Bool :=
  c = ' ' || c = '\t' || c = '\n' || c = '\r' || c = '\x0b' || c = '\x0c'

/-- Embedding of `String.prototype.trim`. -/
def jsTrim (s : List Char) : List Char :=
  ((s.dropWhile isJsWhitespace).reverse.dropWhile isJsWhitespace).reverse

/-- Does `s` start with `pat`?  Embedding of `String.prototype.startsWith`. -/
def startsWithL : List Char → List Char → Bool
  | [], _ => true
  | _ :: _, [] => false
  | p :: ps, c :: cs => p = c && startsWithL ps cs

/-- Does `s` contain `pat` as a contiguous substring?  Embedding of
`String.prototype.includes`. -/
def containsL (pat : List Char) : List Char → Bool
  | [] => startsWithL pat []
  | c :: rest => startsWithL pat (c :: rest) || containsL pat rest

/-- Unicode combining diacritical marks U+0300 - U+036F, the range the
source strips after NFKD decomposition. -/
def isCombiningMark (c : Char) : Bool :=
  0x300 ≤ c.toNat && c.toNat ≤ 0x36F

/-- Characters kept verbatim by the `[^a-z0-9]+ -> _` replacement. -/
def isLowerAlphaNum (c : Char) : Bool :=
  ('a' ≤ c && c ≤ 'z') || ('0' ≤ c && c ≤ '9')

/-- Embedding of the regex replacement `[^a-z0-9]+ -> '_'`: every
maximal run of non-alphanumeric characters becomes a single
underscore.  `prevSep` records whether the previous character belonged
to such a run. -/
def collapseRuns : Bool → List Char → List Char
  | _, [] => []
  | prevSep, c :: rest =>
    if isLowerAlphaNum c then c :: collapseRuns false rest
    else if prevSep then collapseRuns true rest
    else '_' :: collapseRuns true rest

/-- Embedding of the regex replacement `^_+|_+$ -> ''`. -/
def trimUnderscores (l : List Char) : List Char :=
  ((l.dropWhile (fun c => c = '_')).reverse.dropWhile (fun c => c = '_')).reverse

/-- Embedding of `normalizeForMatch` (src/unnamed/part_001 lines 31-37):
NFKD (identity on the ASCII range), strip combining marks, lowercase,
collapse non-alphanumeric runs to `_`, trim leading/trailing `_`. -/
def normalizeForMatch (s : List Char) : List Char :=
  trimUnderscores
    (collapseRuns false ((s.filter (fun c => !isCombiningMark c)).map Char.toLower))

/-- Embedding of `String.prototype.split` on a single separator
character. -/
def splitOnChar (sep : Char) : List Char → List (List Char)
  | [] => [[]]
  | c :: rest =>
    let r := splitOnChar sep rest
    if c = sep then [] :: r
    else
      match r with
      | [] => [[c]]
      | f :: t => (c :: f) :: t

/-- Embedding of `padStart(4, '0')`. -/
def padStart4 (s : List Char) : List Char :=
  if 4 ≤ s.length then s else List.replicate (4 - s.length) '0' ++ s

/-! ### Postcode catalog parser (src/unnamed/part_001 lines 302-319) -/

/-- Embedding of the `PostcodeData` record (src/types.ts). -/
structure PostcodeData where
  postcode : List Char
  suburb : List Char
  state : List Char
deriving DecidableEq

/-- Embedding of `.replace(/^"|"$/g, '')`: one leading and one trailing
double quote are removed. -/
def stripQuotes (s : List Char) : List Char :=
  let s1 := match s with
    | '"' :: rest => rest
    | _ => s
  match s1.reverse with
  | '"' :: restR => restR.reverse
  | _ => s1

/-- Embedding of one iteration of the `POSTCODES` parsing loop
(src/unnamed/part_001 lines 305-317): trim the line; drop it when blank
or when its lowercasing starts with `postcode`; split on commas, trim
and quote-strip each field; with at least three fields build a record
from the zero-padded first field and fields two and three. -/
def parseLine (line : List Char) : Option PostcodeData :=
  let trimmedLine := jsTrim line
  if trimmedLine.isEmpty ||
      startsWithL ("postcode".data) (trimmedLine.map Char.toLower) then none
  else
    match (splitOnChar ',' trimmedLine).map (fun p => stripQuotes (jsTrim p)) with
    | p0 :: p1 :: p2 :: _ =>
      some { postcode := padStart4 p0, suburb := p1, state := p2 }
    | _ => none

/-- Embedding of the whole `POSTCODES` computation: split the raw CSV
on newlines and keep the parsed rows in order. -/
def parsePostcodes (csv : List Char) : List PostcodeData :=
  (splitOnChar '\n' csv).filterMap parseLine

/-! ### Image index builder and resolver (src/unnamed/part_001 lines 17-106) -/

/-- Embedding of the `Orientation` union type. -/
inductive Orientation where
  | landscape
  | portrait
deriving DecidableEq

/-- The orientation's name as it appears in template strings. -/
def Orientation.token : Orientation → List Char
  | .landscape => "landscape".data
  | .portrait => "portrait".data

/-- Embedding of the `IndexedImage` record (src/unnamed/part_001 lines
19-24). -/
structure IndexedImage where
  url : List Char
  postcode : List Char
  orientation : Orientation
  normalizedName : List Char
deriving DecidableEq

/-- Embedding of `baseName.replace(/\.[^.]+$/, '')`: drop a final dot
followed by one or more non-dot characters. -/
def stripExt (s : List Char) : List Char :=
  let r := s.reverse
  let ext := r.takeWhile (fun c => c ≠ '.')
  match r.drop ext.length with
  | '.' :: restR => if ext.isEmpty then s else restR.reverse
  | _ => s

/-- Embedding of `baseName.match(/^(\d{3,4})/)`: the regex greedily
captures up to four leading decimal digits and fails below three. -/
def postcodeMatch (baseName : List Char) : Option (List Char) :=
  let d := baseName.takeWhile Char.isDigit
  if 3 ≤ d.length then some (d.take 4) else none

/-- Embedding of one entry of the `IMAGE_INDEX` construction
(src/unnamed/part_001 lines 39-56): take the path's last segment, strip
the extension, require a 3-4 digit leading postcode (zero-padded to 4),
classify orientation by the `/portrait/` path segment, and normalize
the base name. -/
def buildIndexEntry (modulePath url : List Char) : Option IndexedImage :=
  let fileName := (splitOnChar '/' modulePath).getLast?.getD []
  let baseName := stripExt fileName
  match postcodeMatch baseName with
  | none => none
  | some pc =>
    some { url := url,
           postcode := padStart4 pc,
           orientation :=
             if containsL ("/portrait/".data) modulePath then .portrait
             else .landscape,
           normalizedName := normalizeForMatch baseName }

/-- Embedding of the candidate-token list `expected`
(src/unnamed/part_001 lines 73-78). -/
def expectedTokens (postcode suburbToken : List Char) (o : Orientation) :
    List (List Char) :=
  [postcode ++ '_' :: suburbToken ++ '_' :: o.token,
   postcode ++ '_' :: suburbToken,
   postcode ++ '_' :: o.token,
   postcode]

/-- Embedding of the per-entry scoring loop (src/unnamed/part_001 lines
84-97): base score 5 for the orientation match, then for each candidate
token in priority order (skipping empty or trailing-underscore tokens)
the maximum of the running score with the token's bonus. -/
def entryScore (suburbToken : List Char) (expected : List (List Char))
    (o : Orientation) (e : IndexedImage) : ℕ :=
  expected.enum.foldl
    (fun score p =>
      let i := p.1
      let token := p.2
      if token.isEmpty || token.getLast? = some '_' then score
      else if e.normalizedName = token then max score (100 - i * 10)
      else if startsWithL token e.normalizedName then max score (80 - i * 8)
      else if !suburbToken.isEmpty && containsL suburbToken e.normalizedName then
        max score (45 - i * 2)
      else score)
    (if e.orientation = o then 5 else 0)

/-- Embedding of the best-entry selection loop (src/unnamed/part_001
lines 80-103): running best entry and best score, strict improvement
required, so the first of equally-scored entries wins.  The initial
best score is `-1`. -/
def pickBest (score : IndexedImage → ℕ) :
    List IndexedImage → IndexedImage → ℤ → IndexedImage
  | [], best, _ => best
  | e :: rest, best, bestScore =>
    if bestScore < (score e : ℤ) then pickBest score rest e (score e : ℤ)
    else pickBest score rest best bestScore

/-- Embedding of `resolvePostcodeImage` (src/unnamed/part_001 lines
58-106). -/
def resolvePostcodeImage (index : List IndexedImage)
    (postcode suburb : List Char) (orientation : Orientation) :
    Option (List Char) :=
  let suburbToken := normalizeForMatch suburb
  let pool := index.filter
    (fun e => decide (e.postcode = postcode) && decide (e.orientation = orientation))
  match pool with
  | [] => none
  | e0 :: rest =>
    some (pickBest
      (entryScore suburbToken (expectedTokens postcode suburbToken orientation)
        orientation)
      (e0 :: rest) e0 (-1)).url

/-! ## Theorems -/

/-! ### Numeric helper lemmas -/

theorem qfloor_eq_floor (q : ℚ) : qfloor q = ⌊q⌋ := Rat.floor_def.symm

theorem jsTrunc_of_nonneg {q : ℚ} (h : 0 ≤ q) : jsTrunc q = ⌊q⌋ := by
  rw [jsTrunc, if_pos h, qfloor_eq_floor]

theorem jsTrunc_of_neg {q : ℚ} (h : ¬ 0 ≤ q) : jsTrunc q = ⌈q⌉ := by
  rw [jsTrunc, if_neg h, qfloor_eq_floor, Int.floor_neg, neg_neg]

theorem tmod_neg_dividend (a b : ℤ) : Int.tmod (-a) b = -(Int.tmod a b) := by
  rw [Int.tmod_def, Int.tmod_def, Int.neg_tdiv]
  ring

theorem tmod_lower_bound (a : ℤ) {b : ℤ} (hb : 0 < b) : -b < Int.tmod a b := by
  rcases le_or_lt 0 a with ha | ha
  · have := Int.tmod_nonneg b ha
    omega
  · have h1 : Int.tmod a b = -(Int.tmod (-a) b) := by
      rw [tmod_neg_dividend, neg_neg]
    have h2 : Int.tmod (-a) b < b := Int.tmod_lt_of_pos (-a) hb
    omega

theorem jsNorm_eq_emod (a : ℤ) {b : ℤ} (hb : 0 < b) : jsNorm a b = a % b := by
  have hlow : -b < Int.tmod a b := tmod_lower_bound a hb
  have hnn : 0 ≤ Int.tmod a b + b := by omega
  rw [jsNorm, Int.tmod_eq_emod hnn hb.le]
  have htm : Int.tmod a b = a - b * (a.tdiv b) := Int.tmod_def a b
  rw [htm]
  have : a - b * a.tdiv b + b = a + b * (1 - a.tdiv b) := by ring
  rw [this, Int.add_mul_emod_self_left]

theorem jsMod_bounds_of_nonneg {a b : ℚ} (hb : 0 < b) (ha : 0 ≤ a) :
    0 ≤ jsMod a b ∧ jsMod a b < b := by
  have hq : 0 ≤ a / b := div_nonneg ha hb.le
  rw [jsMod, jsTrunc_of_nonneg hq]
  constructor
  · have h1 : (⌊a / b⌋ : ℚ) ≤ a / b := Int.floor_le _
    have h2 : (⌊a / b⌋ : ℚ) * b ≤ a := (le_div_iff₀ hb).1 h1
    linarith
  · have h1 : a / b < (⌊a / b⌋ : ℚ) + 1 := Int.lt_floor_add_one _
    have h2 : a < ((⌊a / b⌋ : ℚ) + 1) * b := (div_lt_iff₀ hb).1 h1
    linarith [h2]

theorem jsMod_bounds_of_neg {a b : ℚ} (hb : 0 < b) (ha : a < 0) :
    -b < jsMod a b ∧ jsMod a b ≤ 0 := by
  have hq : ¬ 0 ≤ a / b := by
    push_neg
    exact div_neg_of_neg_of_pos ha hb
  rw [jsMod, jsTrunc_of_neg hq]
  constructor
  · have h1 : (⌈a / b⌉ : ℚ) < a / b + 1 := Int.ceil_lt_add_one _
    have h2 : (⌈a / b⌉ : ℚ) * b < (a / b + 1) * b :=
      mul_lt_mul_of_pos_right h1 hb
    have h3 : (a / b + 1) * b = a + b := by
      field_simp
    nlinarith
  · have h1 : a / b ≤ (⌈a / b⌉ : ℚ) := Int.le_ceil _
    have h2 : a ≤ (⌈a / b⌉ : ℚ) * b := (div_le_iff₀ hb).1 h1
    linarith

theorem jsMod_gt_neg {a b : ℚ} (hb : 0 < b) : -b < jsMod a b := by
  rcases le_or_lt 0 a with ha | ha
  · have := (jsMod_bounds_of_nonneg hb ha).1
    linarith
  · exact (jsMod_bounds_of_neg hb ha).1

theorem normalizedOffset_bounds (lh st : ℚ) (hlh : 0 < lh) :
    0 ≤ normalizedOffset lh st ∧ normalizedOffset lh st < lh := by
  have h1 : -lh < jsMod st lh := jsMod_gt_neg hlh
  have h2 : 0 ≤ jsMod st lh + lh := by linarith
  exact jsMod_bounds_of_nonneg hlh h2

theorem jsMod_add_int_mul {b r : ℚ} (k : ℤ) (hk : 0 ≤ k) (hb : 0 < b)
    (hr0 : 0 ≤ r) (hr1 : r < b) : jsMod ((k : ℚ) * b + r) b = r := by
  have harg : 0 ≤ (k : ℚ) * b + r := by
    have : (0 : ℚ) ≤ (k : ℚ) := by exact_mod_cast hk
    nlinarith
  have hdiv : ((k : ℚ) * b + r) / b = r / b + (k : ℚ) := by
    field_simp
    ring
  have hfr : ⌊r / b⌋ = 0 := by
    rw [Int.floor_eq_zero_iff]
    constructor
    · exact div_nonneg hr0 hb.le
    · exact (div_lt_one hb).2 hr1
  rw [jsMod, jsTrunc_of_nonneg (by rw [hdiv]; positivity)]
  rw [hdiv, Int.floor_add_int, hfr, zero_add]
  ring

theorem normalizedOffset_int_mul_add {b r : ℚ} (k : ℤ) (hk : 0 ≤ k)
    (hb : 0 < b) (hr0 : 0 ≤ r) (hr1 : r < b) :
    normalizedOffset b ((k : ℚ) * b + r) = r := by
  rw [normalizedOffset, jsMod_add_int_mul k hk hb hr0 hr1]
  have h1 : r + b = ((1 : ℤ) : ℚ) * b + r := by push_cast; ring
  rw [h1, jsMod_add_int_mul 1 (by norm_num) hb hr0 hr1]

/-! ### C1: virtual-cycle multiplier -/

/-- C1, counterexample.  With `listHeight = 1500` (the spec's own
example: `N = 100`, `step = 15`) the engine computes multiplier `5333`
and `totalHeight = 7 999 500 < 8 000 000`, while the smallest integer
`≥ 120` whose product with `1500` reaches the pixel budget would be
`5334`.  The engine floors the quotient instead of ceiling it, so the
budget is an upper bound, not a lower bound. -/
theorem virtualMultiplier_budget_cex :
    VIRTUAL_MULTIPLIER 1500 = 5333 ∧
    VIRTUAL_MULTIPLIER 1500 * 1500 < 8000000 ∧
    MIN_VIRTUAL_CYCLES ≤ 5334 ∧ 8000000 ≤ 5334 * 1500 := by decide

/-- C1, amended.  For positive `listHeight` the multiplier is
`max 120 ⌊8 000 000 / listHeight⌋`; whenever the floored quotient is at
least the 120-cycle minimum the resulting `totalHeight` is at most
`8 000 000`, and in all cases `totalHeight` exceeds
`8 000 000 - listHeight`. -/
theorem virtualMultiplier_spec (lh : ℕ) (hlh : 0 < lh) :
    VIRTUAL_MULTIPLIER lh = max MIN_VIRTUAL_CYCLES (MAX_VIRTUAL_SCROLL_PX / lh) ∧
    (MIN_VIRTUAL_CYCLES ≤ MAX_VIRTUAL_SCROLL_PX / lh →
      VIRTUAL_MULTIPLIER lh * lh ≤ MAX_VIRTUAL_SCROLL_PX) ∧
    MAX_VIRTUAL_SCROLL_PX < VIRTUAL_MULTIPLIER lh * lh + lh := by
  have hne : lh ≠ 0 := hlh.ne'
  refine ⟨by rw [VIRTUAL_MULTIPLIER, if_neg hne], ?_, ?_⟩
  · intro hmin
    rw [VIRTUAL_MULTIPLIER, if_neg hne, max_eq_right hmin]
    exact Nat.div_mul_le_self _ _
  · have hq : MAX_VIRTUAL_SCROLL_PX / lh ≤ VIRTUAL_MULTIPLIER lh := by
      rw [VIRTUAL_MULTIPLIER, if_neg hne]
      exact le_max_right _ _
    have hmod : MAX_VIRTUAL_SCROLL_PX % lh < lh := Nat.mod_lt _ hlh
    have hdm : lh * (MAX_VIRTUAL_SCROLL_PX / lh) + MAX_VIRTUAL_SCROLL_PX % lh =
        MAX_VIRTUAL_SCROLL_PX := Nat.div_add_mod _ _
    have hmul : MAX_VIRTUAL_SCROLL_PX / lh * lh ≤ VIRTUAL_MULTIPLIER lh * lh :=
      Nat.mul_le_mul_right _ hq
    have hcomm : lh * (MAX_VIRTUAL_SCROLL_PX / lh) =
        MAX_VIRTUAL_SCROLL_PX / lh * lh := Nat.mul_comm _ _
    omega

/-- C1, witness for `virtualMultiplier_spec` at `listHeight = 1500`. -/
theorem virtualMultiplier_spec_witness :
    0 < 1500 ∧
    (VIRTUAL_MULTIPLIER 1500 = max MIN_VIRTUAL_CYCLES (MAX_VIRTUAL_SCROLL_PX / 1500) ∧
      (MIN_VIRTUAL_CYCLES ≤ MAX_VIRTUAL_SCROLL_PX / 1500 →
        VIRTUAL_MULTIPLIER 1500 * 1500 ≤ MAX_VIRTUAL_SCROLL_PX) ∧
      MAX_VIRTUAL_SCROLL_PX < VIRTUAL_MULTIPLIER 1500 * 1500 + 1500) :=
  ⟨by decide, virtualMultiplier_spec 1500 (by decide)⟩

/-! ### C8: scrollToIndex residue -/

/-- C8.  For every positive catalog length `N` and every integer target
index `i` (including negative ones), `scrollToIndex i` writes the
mathematical non-negative residue `i mod N` to `activeIndex`. -/
theorem scrollToIndex_activeIndex (n : ℕ) (i : ℤ) (hn : 0 < n) :
    scrollToIndexActive n i = some (i % (n : ℤ)) ∧
    0 ≤ i % (n : ℤ) ∧ i % (n : ℤ) < n := by
  have hb : (0 : ℤ) < n := by exact_mod_cast hn
  refine ⟨?_, Int.emod_nonneg i hb.ne', Int.emod_lt_of_pos i hb⟩
  rw [scrollToIndexActive, if_neg hn.ne', jsNorm_eq_emod i hb]

/-- C8, witness for `scrollToIndex_activeIndex` at `N = 100`,
`i = -7`: the stored index is `93`. -/
theorem scrollToIndex_activeIndex_witness :
    0 < 100 ∧
    (scrollToIndexActive 100 (-7) = some ((-7) % (100 : ℤ)) ∧
      0 ≤ (-7) % (100 : ℤ) ∧ (-7) % (100 : ℤ) < 100) :=
  ⟨by decide, scrollToIndex_activeIndex 100 (-7) (by decide)⟩

/-! ### C2: recentering preserves the raw index -/

/-- C2.  Whenever `scrollTop` is within 1.5 list-heights of either
boundary of the virtual range, `handleScroll` rewrites it to
`⌊multiplier / 2⌋ * listHeight + (scrollTop mod listHeight)`, and the
raw index derived from the scroll position is identical before and
after the rewrite. -/
theorem handleScroll_recenter (n m : ℕ) (st : ℚ) (hn : 0 < n)
    (htrig : st < (LIST_PIXEL_HEIGHT n : ℚ) * (3 / 2) ∨
      (LIST_PIXEL_HEIGHT n : ℚ) * (m : ℚ) - (LIST_PIXEL_HEIGHT n : ℚ) * (3 / 2) < st) :
    recenterScrollTop n m st =
      ((m / 2 : ℕ) : ℚ) * (LIST_PIXEL_HEIGHT n : ℚ) +
        normalizedOffset (LIST_PIXEL_HEIGHT n : ℚ) st ∧
    rawIndex n (recenterScrollTop n m st) = rawIndex n st := by
  have hlh : (0 : ℚ) < (LIST_PIXEL_HEIGHT n : ℚ) := by
    have : 0 < LIST_PIXEL_HEIGHT n := by
      have : 0 < BASE_STEP_HEIGHT := by decide
      exact Nat.mul_pos hn this
    exact_mod_cast this
  have hre : recenterScrollTop n m st =
      ((m / 2 : ℕ) : ℚ) * (LIST_PIXEL_HEIGHT n : ℚ) +
        normalizedOffset (LIST_PIXEL_HEIGHT n : ℚ) st := by
    rw [recenterScrollTop, if_pos htrig]
  refine ⟨hre, ?_⟩
  obtain ⟨hoff0, hoff1⟩ := normalizedOffset_bounds _ st hlh
  have hinv : normalizedOffset (LIST_PIXEL_HEIGHT n : ℚ) (recenterScrollTop n m st) =
      normalizedOffset (LIST_PIXEL_HEIGHT n : ℚ) st := by
    rw [hre]
    have hk : (0 : ℤ) ≤ ((m / 2 : ℕ) : ℤ) := Int.natCast_nonneg _
    have hcast : ((m / 2 : ℕ) : ℚ) = (((m / 2 : ℕ) : ℤ) : ℚ) :=
      (Int.cast_natCast _).symm
    rw [hcast]
    exact normalizedOffset_int_mul_add _ hk hlh hoff0 hoff1
  rw [rawIndex, rawIndex, hinv]

/-- C2, witness for `handleScroll_recenter` at `N = 100`, `m = 5333`,
`scrollTop = 100` (inside the bottom guard band). -/
theorem handleScroll_recenter_witness :
    (0 < 100 ∧
      ((100 : ℚ) < (LIST_PIXEL_HEIGHT 100 : ℚ) * (3 / 2) ∨
        (LIST_PIXEL_HEIGHT 100 : ℚ) * (5333 : ℚ) -
          (LIST_PIXEL_HEIGHT 100 : ℚ) * (3 / 2) < 100)) ∧
    (recenterScrollTop 100 5333 100 =
      ((5333 / 2 : ℕ) : ℚ) * (LIST_PIXEL_HEIGHT 100 : ℚ) +
        normalizedOffset (LIST_PIXEL_HEIGHT 100 : ℚ) 100 ∧
      rawIndex 100 (recenterScrollTop 100 5333 100) = rawIndex 100 100) :=
  ⟨⟨by decide, Or.inl (by norm_num [LIST_PIXEL_HEIGHT, BASE_STEP_HEIGHT])⟩,
    handleScroll_recenter 100 5333 100 (by decide)
      (Or.inl (by norm_num [LIST_PIXEL_HEIGHT, BASE_STEP_HEIGHT]))⟩

/-! ### C4: directional seek is strictly monotone -/

/-- C4.  For every current position, every target index in `[0, N)` and
both directions, the directional-seek target lies strictly past the
current position in the requested direction, and it equals the
in-cycle candidate when that candidate is already strictly past, and
the candidate shifted by exactly one list-height otherwise. -/
theorem getDirectionalTargetTop_spec (n ti : ℕ) (d : ℤ) (ct : ℚ)
    (hn : 0 < n) (hti : ti < n) :
    (d = 1 → ct < getDirectionalTargetTop n ti d ct ∧
      getDirectionalTargetTop n ti d ct =
        (if ct < directionalCandidate n ti ct then directionalCandidate n ti ct
         else directionalCandidate n ti ct + (LIST_PIXEL_HEIGHT n : ℚ))) ∧
    (d = -1 → getDirectionalTargetTop n ti d ct < ct ∧
      getDirectionalTargetTop n ti d ct =
        (if directionalCandidate n ti ct < ct then directionalCandidate n ti ct
         else directionalCandidate n ti ct - (LIST_PIXEL_HEIGHT n : ℚ))) := by
  have hlh : (0 : ℚ) < (LIST_PIXEL_HEIGHT n : ℚ) := by
    have : 0 < LIST_PIXEL_HEIGHT n := by
      have : 0 < BASE_STEP_HEIGHT := by decide
      exact Nat.mul_pos hn this
    exact_mod_cast this
  have hcsle : cycleStartOf n ct ≤ ct := by
    rw [cycleStartOf, qfloor_eq_floor]
    have h1 : (⌊ct / (LIST_PIXEL_HEIGHT n : ℚ)⌋ : ℚ) ≤ ct / (LIST_PIXEL_HEIGHT n : ℚ) :=
      Int.floor_le _
    exact (le_div_iff₀ hlh).1 h1
  have hcslt : ct < cycleStartOf n ct + (LIST_PIXEL_HEIGHT n : ℚ) := by
    rw [cycleStartOf, qfloor_eq_floor]
    have h1 : ct / (LIST_PIXEL_HEIGHT n : ℚ) <
        (⌊ct / (LIST_PIXEL_HEIGHT n : ℚ)⌋ : ℚ) + 1 := Int.lt_floor_add_one _
    have h2 : ct < ((⌊ct / (LIST_PIXEL_HEIGHT n : ℚ)⌋ : ℚ) + 1) * (LIST_PIXEL_HEIGHT n : ℚ) :=
      (div_lt_iff₀ hlh).1 h1
    linarith
  have hcand0 : cycleStartOf n ct ≤ directionalCandidate n ti ct := by
    rw [directionalCandidate]
    have : (0 : ℚ) ≤ (ti : ℚ) * (BASE_STEP_HEIGHT : ℚ) := by positivity
    linarith
  have hcand1 : directionalCandidate n ti ct <
      cycleStartOf n ct + (LIST_PIXEL_HEIGHT n : ℚ) := by
    rw [directionalCandidate]
    have hlt : (ti : ℚ) * (BASE_STEP_HEIGHT : ℚ) < (LIST_PIXEL_HEIGHT n : ℚ) := by
      have h1 : (ti : ℚ) < (n : ℚ) := by exact_mod_cast hti
      have h2 : (0 : ℚ) < (BASE_STEP_HEIGHT : ℚ) := by norm_num [BASE_STEP_HEIGHT]
      have h3 : (LIST_PIXEL_HEIGHT n : ℚ) = (n : ℚ) * (BASE_STEP_HEIGHT : ℚ) := by
        norm_num [LIST_PIXEL_HEIGHT]
      rw [h3]
      exact mul_lt_mul_of_pos_right h1 h2
    linarith
  constructor
  · rintro rfl
    rcases le_or_lt (directionalCandidate n ti ct) ct with hle | hgt
    · have hinner : (if 0 < (1 : ℤ) ∧ directionalCandidate n ti ct ≤ ct
          then directionalCandidate n ti ct + (LIST_PIXEL_HEIGHT n : ℚ)
          else directionalCandidate n ti ct) =
          directionalCandidate n ti ct + (LIST_PIXEL_HEIGHT n : ℚ) :=
        if_pos (And.intro Int.one_pos hle)
      have hres : getDirectionalTargetTop n ti 1 ct =
          directionalCandidate n ti ct + (LIST_PIXEL_HEIGHT n : ℚ) := by
        rw [getDirectionalTargetTop]
        rw [if_neg (by rintro ⟨h, -⟩; exact absurd h (by norm_num))]
        exact hinner
      refine ⟨?_, ?_⟩
      · rw [hres]; linarith
      · rw [hres, if_neg (not_lt.2 hle)]
    · have hinner : (if 0 < (1 : ℤ) ∧ directionalCandidate n ti ct ≤ ct
          then directionalCandidate n ti ct + (LIST_PIXEL_HEIGHT n : ℚ)
          else directionalCandidate n ti ct) = directionalCandidate n ti ct :=
        if_neg (by rintro ⟨-, h⟩; exact absurd h (not_le.2 hgt))
      have hres : getDirectionalTargetTop n ti 1 ct = directionalCandidate n ti ct := by
        rw [getDirectionalTargetTop]
        rw [if_neg (by rintro ⟨h, -⟩; exact absurd h (by norm_num))]
        exact hinner
      exact ⟨by rw [hres]; exact hgt, by rw [hres, if_pos hgt]⟩
  · rintro rfl
    have hinner : (if 0 < (-1 : ℤ) ∧ directionalCandidate n ti ct ≤ ct
        then directionalCandidate n ti ct + (LIST_PIXEL_HEIGHT n : ℚ)
        else directionalCandidate n ti ct) = directionalCandidate n ti ct :=
      if_neg (by rintro ⟨h, -⟩; exact absurd h (by norm_num))
    rcases lt_or_le (directionalCandidate n ti ct) ct with hlt | hge
    · have hres : getDirectionalTargetTop n ti (-1) ct = directionalCandidate n ti ct := by
        rw [getDirectionalTargetTop, hinner]
        rw [if_neg (by rintro ⟨-, h⟩; exact absurd h (not_le.2 hlt))]
      exact ⟨by rw [hres]; exact hlt, by rw [hres, if_pos hlt]⟩
    · have hres : getDirectionalTargetTop n ti (-1) ct =
          directionalCandidate n ti ct - (LIST_PIXEL_HEIGHT n : ℚ) := by
        rw [getDirectionalTargetTop, hinner]
        rw [if_pos (And.intro (by norm_num) hge)]
      refine ⟨?_, by rw [hres, if_neg (not_lt.2 hge)]⟩
      rw [hres]
      linarith

/-- C4, witness for `getDirectionalTargetTop_spec` at `N = 100`,
`targetIndex = 5`, direction forward, `currentTop = 3000`. -/
theorem getDirectionalTargetTop_spec_witness :
    (0 < 100 ∧ 5 < 100) ∧
    (((1 : ℤ) = 1 → (3000 : ℚ) < getDirectionalTargetTop 100 5 1 3000 ∧
      getDirectionalTargetTop 100 5 1 3000 =
        (if (3000 : ℚ) < directionalCandidate 100 5 3000 then directionalCandidate 100 5 3000
         else directionalCandidate 100 5 3000 + (LIST_PIXEL_HEIGHT 100 : ℚ))) ∧
    ((1 : ℤ) = -1 → getDirectionalTargetTop 100 5 1 3000 < 3000 ∧
      getDirectionalTargetTop 100 5 1 3000 =
        (if directionalCandidate 100 5 3000 < (3000 : ℚ) then directionalCandidate 100 5 3000
         else directionalCandidate 100 5 3000 - (LIST_PIXEL_HEIGHT 100 : ℚ)))) :=
  ⟨⟨by decide, by decide⟩,
    getDirectionalTargetTop_spec 100 5 1 3000 (by decide) (by decide)⟩

/-! ### Sorted-list search lemmas -/

theorem jsNorm_of_lt {i n : ℕ} (h : i < n) : jsNorm (i : ℤ) (n : ℤ) = (i : ℤ) := by
  have hb : (0 : ℤ) < (n : ℤ) := by exact_mod_cast Nat.lt_of_le_of_lt (Nat.zero_le i) h
  rw [jsNorm_eq_emod _ hb]
  exact Int.emod_eq_of_lt (Int.natCast_nonneg i) (by exact_mod_cast h)

theorem find?_all_false {α : Type} {p : α → Bool} {l : List α}
    (h : ∀ x ∈ l, p x = false) : l.find? p = none :=
  List.find?_eq_none.2 fun x hx => by rw [h x hx]; simp

theorem find?_all_true {α : Type} {p : α → Bool} {l : List α}
    (h : ∀ x ∈ l, p x = true) : l.find? p = l.head? := by
  cases l with
  | nil => rfl
  | cons a t => rw [List.find?_cons_of_pos t (h a (List.mem_cons_self a t)), List.head?_cons]

theorem find?_sorted_split {A B : List ℕ} {i : ℕ} {p : ℕ → Bool}
    (hA : ∀ x ∈ A, p x = false) (hi : p i = false) (hB : ∀ x ∈ B, p x = true) :
    (A ++ i :: B).find? p = B.head? := by
  rw [List.find?_append, find?_all_false hA, Option.none_or,
    List.find?_cons_of_neg B (by rw [hi]; simp), find?_all_true hB]

theorem findNext_fwd_eval {imgs : List ℕ} {n i : ℕ} (hne : imgs ≠ [])
    (hi : i < n) :
    findNextImageIndex imgs n (i : ℤ) 1 =
      some ((imgs.find? (fun (x : ℕ) => decide ((i : ℤ) < (x : ℤ)))).getD
        (imgs.head?.getD 0)) := by
  have hn : n ≠ 0 := (Nat.lt_of_le_of_lt (Nat.zero_le i) hi).ne'
  rw [findNextImageIndex, if_neg (by simp [List.isEmpty_iff, hne, hn]),
    jsNorm_of_lt hi, if_pos (by norm_num)]

theorem findNext_bwd_eval {imgs : List ℕ} {n j : ℕ} (hne : imgs ≠ [])
    (hj : j < n) :
    findNextImageIndex imgs n (j : ℤ) (-1) =
      some ((imgs.reverse.find? (fun (x : ℕ) => decide ((x : ℤ) < (j : ℤ)))).getD
        (imgs.getLast?.getD 0)) := by
  have hn : n ≠ 0 := (Nat.lt_of_le_of_lt (Nat.zero_le j) hj).ne'
  rw [findNextImageIndex, if_neg (by simp [List.isEmpty_iff, hne, hn]),
    jsNorm_of_lt hj, if_neg (by norm_num)]

/-! ### C3: forward/backward image stepping is a round trip -/

/-- C3.  On a non-empty, strictly increasing list of image-bearing
indices bounded by the catalog length, stepping forward from an
image-bearing index `i` and then backward from the result returns
exactly `i`: the image-bearing indices behave as a circular
doubly-linked ordering. -/
theorem findNextImageIndex_roundtrip (imgs : List ℕ) (n i : ℕ)
    (hsort : List.Sorted (· < ·) imgs) (hbound : ∀ x ∈ imgs, x < n)
    (hmem : i ∈ imgs) :
    ∃ j, findNextImageIndex imgs n (i : ℤ) 1 = some j ∧ j ∈ imgs ∧
      findNextImageIndex imgs n (j : ℤ) (-1) = some i := by
  obtain ⟨A, B, rfl⟩ := List.append_of_mem hmem
  have hpair : List.Pairwise (· < ·) (A ++ i :: B) := hsort
  obtain ⟨hpA, hpIB, hcross⟩ := List.pairwise_append.mp hpair
  obtain ⟨hiB, hpB⟩ := List.pairwise_cons.mp hpIB
  have hAi : ∀ a ∈ A, a < i := fun a ha => hcross a ha i (List.mem_cons_self i B)
  have hne : A ++ i :: B ≠ [] := by simp
  have hin : i < n := hbound i hmem
  have hfindF : (A ++ i :: B).find? (fun (x : ℕ) => decide ((i : ℤ) < (x : ℤ))) =
      B.head? := by
    refine find?_sorted_split ?_ (by simp) ?_
    · intro x hx
      simp only [decide_eq_false_iff_not]
      exact_mod_cast not_lt.2 (hAi x hx).le
    · intro x hx
      simp only [decide_eq_true_eq]
      exact_mod_cast hiB x hx
  cases B with
  | cons b B' =>
    have hbmem : b ∈ A ++ i :: b :: B' := by simp
    have hbn : b < n := hbound b hbmem
    have hib : i < b := hiB b (List.mem_cons_self b B')
    have hbB' : ∀ x ∈ B', b < x := (List.pairwise_cons.mp hpB).1
    refine ⟨b, ?_, hbmem, ?_⟩
    · rw [findNext_fwd_eval hne hin, hfindF]
      rfl
    · rw [findNext_bwd_eval hne hbn]
      have hrev : (A ++ i :: b :: B').reverse =
          B'.reverse ++ b :: (A ++ [i]).reverse := by
        simp [List.reverse_append, List.reverse_cons, List.append_assoc]
      rw [hrev]
      have hfindB : (B'.reverse ++ b :: (A ++ [i]).reverse).find?
          (fun (x : ℕ) => decide ((x : ℤ) < (b : ℤ))) =
          (A ++ [i]).reverse.head? := by
        refine find?_sorted_split ?_ (by simp) ?_
        · intro x hx
          simp only [decide_eq_false_iff_not]
          exact_mod_cast not_lt.2 (hbB' x (List.mem_reverse.mp hx)).le
        · intro x hx
          simp only [decide_eq_true_eq]
          rcases List.mem_append.mp (List.mem_reverse.mp hx) with hxa | hxi
          · exact_mod_cast lt_trans (hAi x hxa) hib
          · have : x = i := by simpa using hxi
            subst this
            exact_mod_cast hib
      rw [hfindB, List.head?_reverse, List.getLast?_concat]
      rfl
  | nil =>
    cases A with
    | nil =>
      refine ⟨i, ?_, by simp, ?_⟩
      · rw [findNext_fwd_eval hne hin, hfindF]
        rfl
      · rw [findNext_bwd_eval hne hin]
        simp only [List.nil_append, List.reverse_cons, List.reverse_nil]
        rw [List.find?_cons_of_neg _ (by simp)]
        rfl
    | cons a A' =>
      have hamem : a ∈ (a :: A') ++ i :: ([] : List ℕ) := by simp
      have han : a < n := hbound a hamem
      have hai : a < i := hAi a (List.mem_cons_self a A')
      have haA' : ∀ x ∈ A', a < x := (List.pairwise_cons.mp hpA).1
      refine ⟨a, ?_, hamem, ?_⟩
      · rw [findNext_fwd_eval hne hin, hfindF]
        rfl
      · rw [findNext_bwd_eval hne han]
        have hrev : ((a :: A') ++ i :: ([] : List ℕ)).reverse =
            (A' ++ [i]).reverse ++ a :: ([] : List ℕ) := by
          simp [List.reverse_append, List.reverse_cons, List.append_assoc]
        rw [hrev]
        have hfindB : ((A' ++ [i]).reverse ++ a :: ([] : List ℕ)).find?
            (fun (x : ℕ) => decide ((x : ℤ) < (a : ℤ))) = ([] : List ℕ).head? := by
          refine find?_sorted_split ?_ (by simp) (by simp)
          intro x hx
          simp only [decide_eq_false_iff_not]
          rcases List.mem_append.mp (List.mem_reverse.mp hx) with hxa | hxi
          · exact_mod_cast not_lt.2 (haA' x hxa).le
          · have : x = i := by simpa using hxi
            subst this
            exact_mod_cast not_lt.2 hai.le
        rw [hfindB]
        have hlast : ((a :: A') ++ i :: ([] : List ℕ)).getLast? = some i := by
          rw [show (a :: A') ++ i :: ([] : List ℕ) = (a :: A') ++ [i] from rfl,
            List.getLast?_concat]
        rw [hlast]
        rfl

/-- C3, witness for `findNextImageIndex_roundtrip` with image-bearing
indices `[2, 5, 9]` in a catalog of length `10`, starting at `5`. -/
theorem findNextImageIndex_roundtrip_witness :
    (List.Sorted (· < ·) [2, 5, 9] ∧ (∀ x ∈ [2, 5, 9], x < 10) ∧ 5 ∈ [2, 5, 9]) ∧
    (∃ j, findNextImageIndex [2, 5, 9] 10 (5 : ℤ) 1 = some j ∧ j ∈ [2, 5, 9] ∧
      findNextImageIndex [2, 5, 9] 10 (j : ℤ) (-1) = some 5) :=
  ⟨⟨by decide, by decide, by decide⟩,
    findNextImageIndex_roundtrip [2, 5, 9] 10 5 (by decide) (by decide) (by decide)⟩

/-! ### C9: every activeIndex write stays in range -/

theorem headD_mem {l : List ℕ} (h : l ≠ []) : l.head?.getD 0 ∈ l := by
  cases l with
  | nil => exact absurd rfl h
  | cons a t => simp

theorem getLastD_mem {l : List ℕ} (h : l ≠ []) : l.getLast?.getD 0 ∈ l := by
  have hrev : l.reverse ≠ [] := by simpa using h
  have hm := headD_mem hrev
  rw [List.head?_reverse] at hm
  exact List.mem_reverse.mp hm

theorem rawIndex_bounds (n : ℕ) (st : ℚ) (hn : 0 < n) :
    0 ≤ rawIndex n st ∧ rawIndex n st < n := by
  have hlh : (0 : ℚ) < (LIST_PIXEL_HEIGHT n : ℚ) := by
    have : 0 < LIST_PIXEL_HEIGHT n := Nat.mul_pos hn (by decide)
    exact_mod_cast this
  obtain ⟨hoff0, hoff1⟩ := normalizedOffset_bounds _ st hlh
  have hstep : (0 : ℚ) < (BASE_STEP_HEIGHT : ℚ) := by norm_num [BASE_STEP_HEIGHT]
  rw [rawIndex, qfloor_eq_floor]
  constructor
  · exact Int.floor_nonneg.2 (div_nonneg hoff0 hstep.le)
  · rw [Int.floor_lt]
    rw [div_lt_iff₀ hstep]
    calc normalizedOffset (LIST_PIXEL_HEIGHT n : ℚ) st
        < (LIST_PIXEL_HEIGHT n : ℚ) := hoff1
      _ = (n : ℚ) * (BASE_STEP_HEIGHT : ℚ) := by
          push_cast [LIST_PIXEL_HEIGHT]
          ring
      _ = ((n : ℤ) : ℚ) * (BASE_STEP_HEIGHT : ℚ) := by push_cast; ring

theorem nearestLoop_mem (n nf : ℤ) (l : List ℕ) (nearest : ℕ) (md : Option ℤ) :
    nearestLoop n nf l nearest md = nearest ∨ nearestLoop n nf l nearest md ∈ l := by
  induction l generalizing nearest md with
  | nil => exact Or.inl rfl
  | cons c rest ih =>
    simp only [nearestLoop]
    split
    · rcases ih c _ with h | h
      · right
        rw [h]
        exact List.mem_cons_self c rest
      · right
        exact List.mem_cons_of_mem c h
    · rcases ih nearest md with h | h
      · exact Or.inl h
      · right
        exact List.mem_cons_of_mem c h

/-- C9.  With a positive catalog length `N` and image-bearing indices
all below `N`, every value the engine writes to `activeIndex` lies in
`[0, N)`: the residue stored by `scrollToIndex`, the raw index derived
from any scroll position, and the results of the nearest-image and
next-image searches (which are always members of the image-bearing
list). -/
theorem activeIndex_in_range (n : ℕ) (imgs : List ℕ) (hn : 0 < n)
    (hbound : ∀ x ∈ imgs, x < n) :
    (∀ i v : ℤ, scrollToIndexActive n i = some v → 0 ≤ v ∧ v < n) ∧
    (∀ st : ℚ, 0 ≤ rawIndex n st ∧ rawIndex n st < n) ∧
    (∀ fi : ℤ, ∀ v : ℕ, findNearestImageIndex imgs n fi = some v → v ∈ imgs ∧ v < n) ∧
    (∀ fi d : ℤ, ∀ v : ℕ, findNextImageIndex imgs n fi d = some v → v ∈ imgs ∧ v < n) := by
  have hb : (0 : ℤ) < (n : ℤ) := by exact_mod_cast hn
  refine ⟨?_, fun st => rawIndex_bounds n st hn, ?_, ?_⟩
  · intro i v h
    rw [scrollToIndexActive, if_neg hn.ne', jsNorm_eq_emod i hb] at h
    cases h
    exact ⟨Int.emod_nonneg i hb.ne', Int.emod_lt_of_pos i hb⟩
  · intro fi v h
    rw [findNearestImageIndex] at h
    by_cases hg : (imgs.isEmpty = true ∨ n = 0)
    · rw [if_pos hg] at h
      exact absurd h (by simp)
    · rw [if_neg hg] at h
      have hne : imgs ≠ [] := by
        intro hnil
        exact hg (Or.inl (by simp [hnil]))
      cases h
      rcases nearestLoop_mem (n : ℤ) (jsNorm fi n) imgs (imgs.head?.getD 0) none with
        hh | hh
      · rw [hh]
        exact ⟨headD_mem hne, hbound _ (headD_mem hne)⟩
      · exact ⟨hh, hbound _ hh⟩
  · intro fi d v h
    rw [findNextImageIndex] at h
    by_cases hg : (imgs.isEmpty = true ∨ n = 0)
    · rw [if_pos hg] at h
      exact absurd h (by simp)
    · rw [if_neg hg] at h
      have hne : imgs ≠ [] := by
        intro hnil
        exact hg (Or.inl (by simp [hnil]))
      by_cases hd : (0 : ℤ) < d
      · rw [if_pos hd] at h
        cases h
        cases hfind : imgs.find? (fun (idx : ℕ) => decide (jsNorm fi (n : ℤ) < (idx : ℤ))) with
        | none =>
          exact ⟨headD_mem hne, hbound _ (headD_mem hne)⟩
        | some w =>
          have hw : w ∈ imgs := List.mem_of_find?_eq_some hfind
          exact ⟨hw, hbound _ hw⟩
      · rw [if_neg hd] at h
        cases h
        cases hfind : imgs.reverse.find?
            (fun (idx : ℕ) => decide ((idx : ℤ) < jsNorm fi (n : ℤ))) with
        | none =>
          exact ⟨getLastD_mem hne, hbound _ (getLastD_mem hne)⟩
        | some w =>
          have hw : w ∈ imgs :=
            List.mem_reverse.mp (List.mem_of_find?_eq_some hfind)
          exact ⟨hw, hbound _ hw⟩

/-- C9, witness for `activeIndex_in_range` at `N = 10`,
image-bearing indices `[2, 5, 9]`. -/
theorem activeIndex_in_range_witness :
    (0 < 10 ∧ (∀ x ∈ [2, 5, 9], x < 10)) ∧
    ((∀ i v : ℤ, scrollToIndexActive 10 i = some v → 0 ≤ v ∧ v < 10) ∧
      (∀ st : ℚ, 0 ≤ rawIndex 10 st ∧ rawIndex 10 st < 10) ∧
      (∀ fi : ℤ, ∀ v : ℕ,
        findNearestImageIndex [2, 5, 9] 10 fi = some v → v ∈ [2, 5, 9] ∧ v < 10) ∧
      (∀ fi d : ℤ, ∀ v : ℕ,
        findNextImageIndex [2, 5, 9] 10 fi d = some v → v ∈ [2, 5, 9] ∧ v < 10)) :=
  ⟨⟨by decide, by decide⟩, activeIndex_in_range 10 [2, 5, 9] (by decide) (by decide)⟩

/-! ### C7: catalog line parsing -/

/-- C7.  Per input line of the catalog text: blank lines and
`postcode`-header lines (checked case-insensitively on the trimmed
text) produce no record; fewer than three comma-separated fields
produce no record; at least three fields produce exactly one record
built from the trimmed, quote-stripped fields, the first zero-padded to
four characters, extra fields ignored; and the row
`"2000, Sydney, NSW"` yields `{postcode: "2000", suburb: "Sydney",
state: "NSW"}`. -/
theorem parseLine_spec :
    (∀ line : List Char, jsTrim line = [] → parseLine line = none) ∧
    (∀ line : List Char,
      startsWithL ("postcode".data) ((jsTrim line).map Char.toLower) = true →
      parseLine line = none) ∧
    (∀ line : List Char,
      ((splitOnChar ',' (jsTrim line)).map (fun p => stripQuotes (jsTrim p))).length < 3 →
      parseLine line = none) ∧
    (∀ (line p0 p1 p2 : List Char) (rest : List (List Char)),
      jsTrim line ≠ [] →
      startsWithL ("postcode".data) ((jsTrim line).map Char.toLower) = false →
      (splitOnChar ',' (jsTrim line)).map (fun p => stripQuotes (jsTrim p)) =
        p0 :: p1 :: p2 :: rest →
      parseLine line = some ⟨padStart4 p0, p1, p2⟩) ∧
    parseLine ("2000, Sydney, NSW".data) =
      some ⟨"2000".data, "Sydney".data, "NSW".data⟩ := by
  refine ⟨?_, ?_, ?_, ?_, by decide⟩
  · intro line h
    simp [parseLine, h]
  · intro line h
    simp [parseLine, h]
  · intro line h
    rw [parseLine]
    rcases hp : (splitOnChar ',' (jsTrim line)).map (fun p => stripQuotes (jsTrim p)) with
      _ | ⟨p0, _ | ⟨p1, _ | ⟨p2, rest⟩⟩⟩
    · split <;> rfl
    · split <;> rfl
    · split <;> rfl
    · rw [hp] at h
      simp at h
      omega
  · intro line p0 p1 p2 rest hne hstart hp
    have hempty : (jsTrim line).isEmpty = false := by
      cases hjt : jsTrim line with
      | nil => exact absurd hjt hne
      | cons a t => rfl
    rw [parseLine, hp, hempty, hstart]
    rfl

/-- C7, witness for `parseLine_spec` (fourth conjunct) on the row
`200,Canberra,ACT,extra`: the postcode is zero-padded and the extra
field ignored. -/
theorem parseLine_spec_witness :
    (jsTrim ("200,Canberra,ACT,extra".data) ≠ [] ∧
      startsWithL ("postcode".data)
        ((jsTrim ("200,Canberra,ACT,extra".data)).map Char.toLower) = false ∧
      (splitOnChar ',' (jsTrim ("200,Canberra,ACT,extra".data))).map
          (fun p => stripQuotes (jsTrim p)) =
        "200".data :: "Canberra".data :: "ACT".data :: ["extra".data]) ∧
    parseLine ("200,Canberra,ACT,extra".data) =
      some ⟨padStart4 ("200".data), "Canberra".data, "ACT".data⟩ :=
  ⟨⟨by decide, by decide, by decide⟩,
    parseLine_spec.2.2.2.1 ("200,Canberra,ACT,extra".data) ("200".data)
      ("Canberra".data) ("ACT".data) ["extra".data] (by decide) (by decide) (by decide)⟩

/-! ### C10: leading-digit handling of the image index builder -/

/-- C10.  For every asset path whose extension-stripped final segment
begins with five or more decimal digits, the index builder still
indexes the asset and stores exactly the first four characters (all
digits) of the base name as its postcode; and an asset is excluded from
the index precisely when its base name has fewer than three leading
digits. -/
theorem buildIndexEntry_leading_digits (modulePath url : List Char) :
    (5 ≤ ((stripExt ((splitOnChar '/' modulePath).getLast?.getD [])).takeWhile
        Char.isDigit).length →
      buildIndexEntry modulePath url = some
        { url := url,
          postcode := (stripExt ((splitOnChar '/' modulePath).getLast?.getD [])).take 4,
          orientation :=
            if containsL ("/portrait/".data) modulePath then .portrait else .landscape,
          normalizedName :=
            normalizeForMatch (stripExt ((splitOnChar '/' modulePath).getLast?.getD [])) }) ∧
    (buildIndexEntry modulePath url = none ↔
      ((stripExt ((splitOnChar '/' modulePath).getLast?.getD [])).takeWhile
        Char.isDigit).length < 3) := by
  constructor
  · intro h5
    have h3 : 3 ≤ ((stripExt ((splitOnChar '/' modulePath).getLast?.getD [])).takeWhile
        Char.isDigit).length := by omega
    have hpm : postcodeMatch (stripExt ((splitOnChar '/' modulePath).getLast?.getD [])) =
        some (((stripExt ((splitOnChar '/' modulePath).getLast?.getD [])).takeWhile
          Char.isDigit).take 4) := by
      rw [postcodeMatch, if_pos h3]
    have hlen4 : (((stripExt ((splitOnChar '/' modulePath).getLast?.getD [])).takeWhile
        Char.isDigit).take 4).length = 4 := by
      rw [List.length_take]
      omega
    have hpad : padStart4 (((stripExt ((splitOnChar '/' modulePath).getLast?.getD
        [])).takeWhile Char.isDigit).take 4) =
        ((stripExt ((splitOnChar '/' modulePath).getLast?.getD [])).takeWhile
          Char.isDigit).take 4 := by
      rw [padStart4, if_pos (by omega)]
    have htake : ((stripExt ((splitOnChar '/' modulePath).getLast?.getD [])).takeWhile
        Char.isDigit).take 4 =
        (stripExt ((splitOnChar '/' modulePath).getLast?.getD [])).take 4 := by
      obtain ⟨t, ht⟩ := (List.takeWhile_prefix (l :=
        stripExt ((splitOnChar '/' modulePath).getLast?.getD [])) (p := Char.isDigit))
      conv_rhs => rw [← ht]
      rw [List.take_append_eq_append_take]
      have hz : 4 - ((stripExt ((splitOnChar '/' modulePath).getLast?.getD
          [])).takeWhile Char.isDigit).length = 0 := by omega
      rw [hz, List.take_zero, List.append_nil]
    rw [buildIndexEntry, hpm]
    simp only [hpad, htake]
    rw [← htake, hpad]
  · rw [buildIndexEntry]
    cases hpm : postcodeMatch (stripExt ((splitOnChar '/' modulePath).getLast?.getD []))
      with
    | none =>
      rw [postcodeMatch] at hpm
      constructor
      · intro _
        by_contra hge
        rw [if_pos (by omega)] at hpm
        exact absurd hpm (by simp)
      · intro _
        rfl
    | some pc =>
      rw [postcodeMatch] at hpm
      constructor
      · intro habs
        exact absurd habs (by simp)
      · intro hlt
        rw [if_neg (by omega)] at hpm
        exact absurd hpm (by simp)

/-- C10, witness for `buildIndexEntry_leading_digits` on the path
`a/123456_x.jpg`: six leading digits, postcode `1234`. -/
theorem buildIndexEntry_leading_digits_witness :
    5 ≤ ((stripExt ((splitOnChar '/' ("a/123456_x.jpg".data)).getLast?.getD
        [])).takeWhile Char.isDigit).length ∧
    buildIndexEntry ("a/123456_x.jpg".data) ("u".data) = some
      { url := "u".data,
        postcode := (stripExt ((splitOnChar '/' ("a/123456_x.jpg".data)).getLast?.getD
          [])).take 4,
        orientation :=
          if containsL ("/portrait/".data) ("a/123456_x.jpg".data) then .portrait
          else .landscape,
        normalizedName :=
          normalizeForMatch (stripExt ((splitOnChar '/'
            ("a/123456_x.jpg".data)).getLast?.getD [])) } :=
  ⟨by decide, (buildIndexEntry_leading_digits ("a/123456_x.jpg".data) ("u".data)).1
    (by decide)⟩

/-! ### C5 and C6: image resolver -/

theorem pickBest_spec (f : IndexedImage → ℕ) (pool : List IndexedImage) :
    ∀ (best : IndexedImage) (bs : ℤ),
    (pickBest f pool best bs = best ∧ ∀ x ∈ pool, (f x : ℤ) ≤ bs) ∨
    (∃ l1 l2, pool = l1 ++ pickBest f pool best bs :: l2 ∧
      bs < (f (pickBest f pool best bs) : ℤ) ∧
      (∀ x ∈ l1, (f x : ℤ) ≤ bs ∨ f x < f (pickBest f pool best bs)) ∧
      (∀ x ∈ l2, f x ≤ f (pickBest f pool best bs))) := by
  induction pool with
  | nil =>
    intro best bs
    exact Or.inl ⟨rfl, by simp⟩
  | cons e rest ih =>
    intro best bs
    rw [pickBest]
    by_cases hlt : bs < (f e : ℤ)
    · rw [if_pos hlt]
      rcases ih e (f e : ℤ) with ⟨heq, hall⟩ | ⟨l1, l2, hsplit, hbs, hl1, hl2⟩
      · right
        refine ⟨[], rest, by simp [heq], by rw [heq]; exact hlt, by simp, ?_⟩
        intro x hx
        have hx' := hall x hx
        rw [heq]
        exact_mod_cast hx'
      · right
        refine ⟨e :: l1, l2, by rw [List.cons_append, ← hsplit], lt_trans hlt hbs, ?_, hl2⟩
        intro x hx
        rcases List.mem_cons.mp hx with rfl | hx'
        · right
          exact_mod_cast hbs
        · rcases hl1 x hx' with h | h
          · right
            exact_mod_cast lt_of_le_of_lt h hbs
          · right
            exact h
    · rw [if_neg hlt]
      rcases ih best bs with ⟨heq, hall⟩ | ⟨l1, l2, hsplit, hbs, hl1, hl2⟩
      · left
        refine ⟨heq, ?_⟩
        intro x hx
        rcases List.mem_cons.mp hx with rfl | hx'
        · exact not_lt.1 hlt
        · exact hall x hx'
      · right
        refine ⟨e :: l1, l2, by rw [List.cons_append, ← hsplit], hbs, ?_, hl2⟩
        intro x hx
        rcases List.mem_cons.mp hx with rfl | hx'
        · exact Or.inl (not_lt.1 hlt)
        · exact hl1 x hx'

/-- C5.  Whenever the postcode-and-orientation filtered pool is
non-empty, the resolver returns the URL of a pool entry whose score is
maximal over the pool, and that entry is the first pool entry attaining
the maximum (every entry strictly before it scores strictly lower). -/
theorem resolvePostcodeImage_argmax (index : List IndexedImage)
    (postcode suburb : List Char) (o : Orientation)
    (hpool : index.filter
      (fun e => decide (e.postcode = postcode) && decide (e.orientation = o)) ≠ []) :
    ∃ e l1 l2,
      index.filter
        (fun e => decide (e.postcode = postcode) && decide (e.orientation = o)) =
        l1 ++ e :: l2 ∧
      resolvePostcodeImage index postcode suburb o = some e.url ∧
      (∀ x ∈ l1,
        entryScore (normalizeForMatch suburb)
          (expectedTokens postcode (normalizeForMatch suburb) o) o x <
        entryScore (normalizeForMatch suburb)
          (expectedTokens postcode (normalizeForMatch suburb) o) o e) ∧
      (∀ x ∈ index.filter
          (fun e => decide (e.postcode = postcode) && decide (e.orientation = o)),
        entryScore (normalizeForMatch suburb)
          (expectedTokens postcode (normalizeForMatch suburb) o) o x ≤
        entryScore (normalizeForMatch suburb)
          (expectedTokens postcode (normalizeForMatch suburb) o) o e) := by
  set f := entryScore (normalizeForMatch suburb)
    (expectedTokens postcode (normalizeForMatch suburb) o) o with hf
  cases hp : index.filter
      (fun e => decide (e.postcode = postcode) && decide (e.orientation = o)) with
  | nil => exact absurd hp hpool
  | cons e0 rest =>
    have hres : resolvePostcodeImage index postcode suburb o =
        some (pickBest f (e0 :: rest) e0 (-1)).url := by
      rw [resolvePostcodeImage, hp]
    rcases pickBest_spec f (e0 :: rest) e0 (-1) with ⟨-, hall⟩ | ⟨l1, l2, hsplit, -, hl1, hl2⟩
    · have := hall e0 (List.mem_cons_self e0 rest)
      have h0 : (0 : ℤ) ≤ (f e0 : ℤ) := Int.natCast_nonneg _
      omega
    · refine ⟨pickBest f (e0 :: rest) e0 (-1), l1, l2, hsplit, hres, ?_, ?_⟩
      · intro x hx
        rcases hl1 x hx with h | h
        · have h0 : (0 : ℤ) ≤ (f x : ℤ) := Int.natCast_nonneg _
          omega
        · exact h
      · intro x hx
        rw [hsplit] at hx
        rcases List.mem_append.mp hx with hx1 | hx2
        · rcases hl1 x hx1 with h | h
          · have h0 : (0 : ℤ) ≤ (f x : ℤ) := Int.natCast_nonneg _
            omega
          · exact le_of_lt h
        · rcases List.mem_cons.mp hx2 with rfl | hx3
          · exact le_refl _
          · exact hl2 x hx3

/-- C5, witness for `resolvePostcodeImage_argmax` on a one-asset index
whose normalized name is exactly `2000_sydney_portrait`: that asset's
URL is returned and its score is the exact-match score 100. -/
theorem resolvePostcodeImage_argmax_witness :
    ([(⟨"u".data, "2000".data, Orientation.portrait,
        "2000_sydney_portrait".data⟩ : IndexedImage)].filter
      (fun e => decide (e.postcode = "2000".data) &&
        decide (e.orientation = Orientation.portrait)) ≠ [] ∧
      resolvePostcodeImage
        [⟨"u".data, "2000".data, Orientation.portrait, "2000_sydney_portrait".data⟩]
        ("2000".data) ("Sydney".data) Orientation.portrait = some ("u".data) ∧
      entryScore (normalizeForMatch ("Sydney".data))
        (expectedTokens ("2000".data) (normalizeForMatch ("Sydney".data))
          Orientation.portrait) Orientation.portrait
        ⟨"u".data, "2000".data, Orientation.portrait, "2000_sydney_portrait".data⟩ =
        100) ∧
    (∃ e l1 l2,
      [(⟨"u".data, "2000".data, Orientation.portrait,
        "2000_sydney_portrait".data⟩ : IndexedImage)].filter
        (fun e => decide (e.postcode = "2000".data) &&
          decide (e.orientation = Orientation.portrait)) =
        l1 ++ e :: l2 ∧
      resolvePostcodeImage
        [⟨"u".data, "2000".data, Orientation.portrait, "2000_sydney_portrait".data⟩]
        ("2000".data) ("Sydney".data) Orientation.portrait = some e.url ∧
      (∀ x ∈ l1,
        entryScore (normalizeForMatch ("Sydney".data))
          (expectedTokens ("2000".data) (normalizeForMatch ("Sydney".data))
            Orientation.portrait) Orientation.portrait x <
        entryScore (normalizeForMatch ("Sydney".data))
          (expectedTokens ("2000".data) (normalizeForMatch ("Sydney".data))
            Orientation.portrait) Orientation.portrait e) ∧
      (∀ x ∈ [(⟨"u".data, "2000".data, Orientation.portrait,
          "2000_sydney_portrait".data⟩ : IndexedImage)].filter
          (fun e => decide (e.postcode = "2000".data) &&
            decide (e.orientation = Orientation.portrait)),
        entryScore (normalizeForMatch ("Sydney".data))
          (expectedTokens ("2000".data) (normalizeForMatch ("Sydney".data))
            Orientation.portrait) Orientation.portrait x ≤
        entryScore (normalizeForMatch ("Sydney".data))
          (expectedTokens ("2000".data) (normalizeForMatch ("Sydney".data))
            Orientation.portrait) Orientation.portrait e)) :=
  ⟨⟨by decide, by decide, by decide⟩,
    resolvePostcodeImage_argmax
      [⟨"u".data, "2000".data, Orientation.portrait, "2000_sydney_portrait".data⟩]
      ("2000".data) ("Sydney".data) Orientation.portrait (by decide)⟩

/-- C6.  The resolver returns `none` exactly when no indexed asset
matches both the requested postcode and the exact requested
orientation: there is no landscape/portrait fallback, and whenever at
least one asset matches both, a URL is returned even if no candidate
name token matches. -/
theorem resolvePostcodeImage_none_iff (index : List IndexedImage)
    (postcode suburb : List Char) (o : Orientation) :
    resolvePostcodeImage index postcode suburb o = none ↔
      ∀ e ∈ index, ¬ (e.postcode = postcode ∧ e.orientation = o) := by
  rw [resolvePostcodeImage]
  cases hp : index.filter
      (fun e => decide (e.postcode = postcode) && decide (e.orientation = o)) with
  | nil =>
    simp only []
    constructor
    · intro _ e he
      have := List.filter_eq_nil_iff.mp hp e he
      simpa using this
    · intro _
      trivial
  | cons e0 rest =>
    simp only []
    constructor
    · intro habs
      exact absurd habs (by simp)
    · intro hall
      exfalso
      have he0 : e0 ∈ index.filter
          (fun e => decide (e.postcode = postcode) && decide (e.orientation = o)) := by
        rw [hp]
        exact List.mem_cons_self e0 rest
      obtain ⟨hmem, hcond⟩ := List.mem_filter.mp he0
      exact hall e0 hmem (by simpa using hcond)

end CodeGallery
